import Mathlib

/-!
Verification of the template-fitter NLL cost functions
(`templatefitter/nll.py`) against their specification.

The module defines two cost functions over an external data histogram and
template collection:

* `SimplePoissonNegativeLogLikelihood` — Poisson NLL over yield parameters,
* `AdvancedPoissonNegativeLogLikelihood` — Poisson NLL over yields plus
  per-template per-bin nuisance parameters with a Gaussian penalty built
  from a block-diagonal inverse correlation matrix.

Vectors and matrices are embedded as `List ℝ` and `List (List ℝ)`.  NumPy
operations (`@`, `np.sum`, `np.log`, elementwise arithmetic) are embedded
as list operations; the shape checks NumPy performs when `@` is applied to
mismatched operands are modelled by `Option`-valued checked operations
(`none` models a raised shape error).  Elementwise binary operations are
modelled with a strict equal-length check (NumPy additionally allows
size-1 broadcasting, which never arises in the configurations considered
here).  Real numbers stand in for IEEE doubles; a separate `EReal`-valued
evaluation models the IEEE infinities produced by `np.log(0)`.
-/

/-- Dot product of two real vectors (NumPy `a @ b` for 1-D operands,
without the shape check). -/
def dotL (a b : List ℝ) : ℝ :=
  (List.zipWith (fun x y => x * y) a b).sum

/-- Number of columns of a matrix stored as a list of rows. -/
def numCols (m : List (List ℝ)) : ℕ := (m.headD []).length

/-- Vector–matrix product `v @ m` (NumPy semantics: entry `j` of the result
is `∑ i, v i * m i j`), without the shape check. -/
def vecMatMul (v : List ℝ) (m : List (List ℝ)) : List ℝ :=
  (List.range (numCols m)).map fun j =>
    (List.zipWith (fun a row => a * row.getD j 0) v m).sum

/-- Matrix–vector product `m @ v`, without the shape check. -/
def matVecMul (m : List (List ℝ)) (v : List ℝ) : List ℝ :=
  m.map fun row => dotL row v

/-- NumPy `v @ m` for a 1-D `v` and 2-D `m`: raises (modelled as `none`)
unless `v` has exactly as many entries as `m` has rows. -/
def vecMatMulChk (v : List ℝ) (m : List (List ℝ)) : Option (List ℝ) :=
  if v.length = m.length then some (vecMatMul v m) else none

/-- NumPy `a @ b` for 1-D operands: raises (modelled as `none`) unless the
lengths agree. -/
def dotChk (a b : List ℝ) : Option ℝ :=
  if a.length = b.length then some (dotL a b) else none

/-- Total number of columns contributed by a list of matrices. -/
def totalCols (mats : List (List (List ℝ))) : ℕ :=
  (mats.map numCols).sum

/-- `scipy.linalg.block_diag`: assemble the given matrices along the
diagonal of a single matrix, zero elsewhere.  `block_diag` performs no
squareness or count validation; it rejects only arrays of more than two
dimensions, which the `List (List ℝ)` type cannot represent, so the
embedding is total. -/
def blockDiag : List (List (List ℝ)) → List (List ℝ)
  | [] => []
  | m :: rest =>
      (m.map fun row => row ++ List.replicate (totalCols rest) 0) ++
      (blockDiag rest).map fun row => List.replicate (numCols m) 0 ++ row

/-- Bin counts of the observed data histogram (shape `(n_bins,)`). -/
structure DataHistogram where
  bin_counts : List ℝ

/-- Modelled from the spec: the external template-collection interface
(`templates` module, not under `src/`), as described in the data-model
section of the specification.  `yield_values` is `none` when the
collection has not been fully initialized (missing yields), in which case
accessing it raises; `bin_fractions none` models the call
`bin_fractions()` with no nuisance argument and `bin_fractions (some θ)`
the call `bin_fractions(θ)`. -/
structure TemplateCollection where
  template_ids : List String
  yield_values : Option (List ℝ)
  nuiss_param_values : List ℝ
  num_bins : ℕ
  num_templates : ℕ
  inv_corr_mats : List (List (List ℝ))
  bin_fractions : Option (List ℝ) → List (List ℝ)

/-- `SimplePoissonNegativeLogLikelihood`: holds the data histogram and the
template collection. -/
structure SimplePoissonNegativeLogLikelihood where
  hdata : DataHistogram
  templates : TemplateCollection

/-- `AdvancedPoissonNegativeLogLikelihood`: additionally caches the
block-diagonal inverse correlation matrix built at construction. -/
structure AdvancedPoissonNegativeLogLikelihood where
  hdata : DataHistogram
  templates : TemplateCollection
  block_diag_inv_corr_mats : List (List ℝ)

/-- `AdvancedPoissonNegativeLogLikelihood.__init__`: store the references
and cache `block_diag(*templates.inv_corr_mats)`. -/
def advancedInit (hdata : DataHistogram) (templates : TemplateCollection) :
    AdvancedPoissonNegativeLogLikelihood :=
  ⟨hdata, templates, blockDiag templates.inv_corr_mats⟩

/-- Construction of the advanced cost function, `Option`-valued so that a
raised exception could be modelled as `none`: since `block_diag` rejects
only arrays of more than two dimensions (unrepresentable here),
construction always succeeds. -/
def advancedInitChk (hdata : DataHistogram) (templates : TemplateCollection) :
    Option AdvancedPoissonNegativeLogLikelihood :=
  some (advancedInit hdata templates)

/-- `AbstractTemplateCostFunction.x0` as inherited by the simple variant:
`templates.yield_values` (raises, i.e. `none`, when yields are missing). -/
def SimplePoissonNegativeLogLikelihood.x0
    (f : SimplePoissonNegativeLogLikelihood) : Option (List ℝ) :=
  f.templates.yield_values

/-- `AdvancedPoissonNegativeLogLikelihood.x0`: concatenation of
`yield_values` and `nuiss_param_values` (raises when yields are missing). -/
def AdvancedPoissonNegativeLogLikelihood.x0
    (f : AdvancedPoissonNegativeLogLikelihood) : Option (List ℝ) :=
  f.templates.yield_values.map (· ++ f.templates.nuiss_param_values)

/-- `SimplePoissonNegativeLogLikelihood.param_names`. -/
def SimplePoissonNegativeLogLikelihood.param_names
    (f : SimplePoissonNegativeLogLikelihood) : List String :=
  f.templates.template_ids.map fun tid => "yield_" ++ tid

/-- `AdvancedPoissonNegativeLogLikelihood.param_names`: yield names
followed by the flattened per-template nuisance-parameter names. -/
def AdvancedPoissonNegativeLogLikelihood.param_names
    (f : AdvancedPoissonNegativeLogLikelihood) : List String :=
  (f.templates.template_ids.map fun tid => "yield_" ++ tid) ++
  (f.templates.template_ids.map fun tid =>
    (List.range f.templates.num_bins).map fun i =>
      "theta_" ++ tid ++ "_" ++ toString i).flatten

/-- The Poisson term `np.sum(expected - observed * np.log(expected))`,
with the elementwise shape check. -/
noncomputable def poissonChk (expectedv obs : List ℝ) : Option ℝ :=
  if obs.length = expectedv.length then
    some ((List.zipWith (fun e o => e - o * Real.log e) expectedv obs).sum)
  else none

/-- `SimplePoissonNegativeLogLikelihood.__call__`:
`poi @ bin_fractions()` followed by the Poisson term. -/
noncomputable def SimplePoissonNegativeLogLikelihood.call
    (f : SimplePoissonNegativeLogLikelihood) (x : List ℝ) : Option ℝ :=
  (vecMatMulChk x (f.templates.bin_fractions none)).bind fun e =>
    poissonChk e f.hdata.bin_counts

/-- `AdvancedPoissonNegativeLogLikelihood.__call__`: split `x` at
`num_templates`, query `bin_fractions` with the nuisance part, add the
Poisson term and the Gaussian term
`0.5 * (nuiss_params @ block_diag_inv_corr_mats @ nuiss_params)`. -/
noncomputable def AdvancedPoissonNegativeLogLikelihood.call
    (f : AdvancedPoissonNegativeLogLikelihood) (x : List ℝ) : Option ℝ :=
  let poi := x.take f.templates.num_templates
  let nuiss := x.drop f.templates.num_templates
  (vecMatMulChk poi (f.templates.bin_fractions (some nuiss))).bind fun e =>
  (poissonChk e f.hdata.bin_counts).bind fun p =>
  (vecMatMulChk nuiss f.block_diag_inv_corr_mats).bind fun gv =>
  (dotChk gv nuiss).map fun g => p + 0.5 * g

/-- A list-of-rows matrix as a Mathlib square matrix (entries outside the
stored data default to `0`). -/
def toMat (n : ℕ) (M : List (List ℝ)) : Matrix (Fin n) (Fin n) ℝ :=
  Matrix.of fun i j => (M.getD (i : ℕ) []).getD (j : ℕ) 0

/-- A list as a Mathlib vector (entries beyond the length default to `0`). -/
def toVec (n : ℕ) (v : List ℝ) : Fin n → ℝ := fun i => v.getD (i : ℕ) 0
/-- Structural invariant of the template collection (spec data model):
`inv_corr_mats` consists of `num_templates` square matrices of size
`num_bins × num_bins`. -/
def TemplateCollection.matsWF (t : TemplateCollection) : Prop :=
  t.inv_corr_mats.length = t.num_templates ∧
  ∀ M ∈ t.inv_corr_mats,
    M.length = t.num_bins ∧ ∀ r ∈ M, r.length = t.num_bins

instance (t : TemplateCollection) : Decidable t.matsWF := by
  unfold TemplateCollection.matsWF
  infer_instance
/-- `np.log` on the nonnegative reals with IEEE semantics, valued in
`EReal`: `log 0 = -∞` and `log x` is finite for `x > 0`.  (`np.log` of a
negative number is NaN; the extended evaluation is only applied under
nonnegativity hypotheses, where the `EReal` model is faithful.) -/
noncomputable def elog (x : ℝ) : EReal :=
  if x = 0 then ⊥ else ((Real.log x : ℝ) : EReal)

/-- The Poisson term `np.sum(expected - observed * np.log(expected))` with
IEEE-infinity propagation modelled in `EReal`. -/
noncomputable def poissonExtChk (expectedv obs : List ℝ) : Option EReal :=
  if obs.length = expectedv.length then
    some ((List.zipWith
      (fun (e o : ℝ) => (e : EReal) - (o : EReal) * elog e) expectedv obs).sum)
  else none

/-- `SimplePoissonNegativeLogLikelihood.__call__` with IEEE-infinity
propagation modelled in `EReal`. -/
noncomputable def SimplePoissonNegativeLogLikelihood.callExt
    (f : SimplePoissonNegativeLogLikelihood) (x : List ℝ) : Option EReal :=
  (vecMatMulChk x (f.templates.bin_fractions none)).bind fun e =>
    poissonExtChk e f.hdata.bin_counts
/-- Concrete data histogram for the spec's 2-template, 3-bin reference
configuration. -/
def hdataC : DataHistogram := ⟨[60, 45, 45]⟩

/-- The spec's reference nominal fraction matrix. -/
def fractionsC : List (List ℝ) := [[0.5, 0.3, 0.2], [0.2, 0.3, 0.5]]

/-- Concrete 2-template, 3-bin collection (identity inverse correlation
matrices, constant fraction function). -/
def templatesC : TemplateCollection where
  template_ids := ["sig", "bkg"]
  yield_values := some [100, 50]
  nuiss_param_values := List.replicate 6 0
  num_bins := 3
  num_templates := 2
  inv_corr_mats :=
    [[[1, 0, 0], [0, 1, 0], [0, 0, 1]], [[1, 0, 0], [0, 1, 0], [0, 0, 1]]]
  bin_fractions := fun _ => fractionsC

/-- Concrete 1-template, 2-bin collection whose first bin has zero
fraction. -/
def templatesZ : TemplateCollection where
  template_ids := ["t0"]
  yield_values := some [1]
  nuiss_param_values := List.replicate 2 0
  num_bins := 2
  num_templates := 1
  inv_corr_mats := [[[1, 0], [0, 1]]]
  bin_fractions := fun _ => [[0, 1]]

/-- Data histogram with positive counts in both bins. -/
def hdataZ : DataHistogram := ⟨[5, 3]⟩

/-- A malformed collection: `num_templates = 2` but `inv_corr_mats` holds a
single `1 × 1` matrix. -/
def templatesBad : TemplateCollection where
  template_ids := ["a", "b"]
  yield_values := some [1, 2]
  nuiss_param_values := List.replicate 4 0
  num_bins := 2
  num_templates := 2
  inv_corr_mats := [[[1]]]
  bin_fractions := fun _ => [[0.5, 0.5], [0.5, 0.5]]

/-- The sum of a list as a `Finset.range` sum over `getD` entries. -/
lemma list_sum_eq_range {α : Type*} [AddCommMonoid α] (l : List α) :
    l.sum = ∑ i ∈ Finset.range l.length, l.getD i 0 := by
  induction l with
  | nil => simp
  | cons a t ih =>
      rw [List.sum_cons, List.length_cons, Finset.sum_range_succ']
      simp only [List.getD_cons_succ, List.getD_cons_zero]
      rw [← ih, add_comm]

/-- The sum of an elementwise combination of two equal-length lists as an
indexed sum. -/
lemma zipWith_sum_eq {α β : Type*} (f : α → β → ℝ) (da : α) (db : β) :
    ∀ (a : List α) (b : List β), a.length = b.length →
      (List.zipWith f a b).sum =
        ∑ i ∈ Finset.range a.length, f (a.getD i da) (b.getD i db) := by
  intro a
  induction a with
  | nil => intro b h; simp
  | cons x xs ih =>
      intro b h
      cases b with
      | nil => simp at h
      | cons y ys =>
          rw [List.zipWith_cons_cons, List.sum_cons, List.length_cons,
            Finset.sum_range_succ']
          simp only [List.getD_cons_succ, List.getD_cons_zero]
          rw [ih ys (by simpa using h), add_comm]

lemma getD_map_of_lt {α β : Type*} (f : α → β) (l : List α) (i : ℕ)
    (h : i < l.length) (d : β) (d' : α) :
    (l.map f).getD i d = f (l.getD i d') := by
  rw [List.getD_eq_getElem _ _ (by simpa using h), List.getD_eq_getElem _ _ h,
    List.getElem_map]

lemma getD_range_map {β : Type*} (f : ℕ → β) (n i : ℕ) (h : i < n) (d : β) :
    ((List.range n).map f).getD i d = f i := by
  rw [getD_map_of_lt f _ i (by simpa using h) d 0,
    List.getD_eq_getElem _ _ (by simpa using h), List.getElem_range]

lemma length_vecMatMul (v : List ℝ) (m : List (List ℝ)) :
    (vecMatMul v m).length = numCols m := by
  simp [vecMatMul]

lemma length_matVecMul (m : List (List ℝ)) (v : List ℝ) :
    (matVecMul m v).length = m.length := by
  simp [matVecMul]

lemma vecMatMul_getD (v : List ℝ) (m : List (List ℝ))
    (h : v.length = m.length) (j : ℕ) (hj : j < numCols m) :
    (vecMatMul v m).getD j 0 =
      ∑ i ∈ Finset.range v.length, v.getD i 0 * (m.getD i []).getD j 0 := by
  unfold vecMatMul
  rw [getD_range_map _ _ j hj]
  exact zipWith_sum_eq (fun a row => a * row.getD j 0) 0 [] v m h

lemma matVecMul_getD (m : List (List ℝ)) (v : List ℝ) (i : ℕ)
    (h : i < m.length) :
    (matVecMul m v).getD i 0 = dotL (m.getD i []) v := by
  unfold matVecMul
  rw [getD_map_of_lt _ _ i h 0 []]

lemma dotL_eq_sum (a b : List ℝ) (h : a.length = b.length) :
    dotL a b = ∑ i ∈ Finset.range a.length, a.getD i 0 * b.getD i 0 :=
  zipWith_sum_eq (fun x y => x * y) 0 0 a b h

lemma zipWith_replicate_zero_sum {β : Type*} (g : β → ℝ) :
    ∀ (k : ℕ) (w : List β),
      (List.zipWith (fun a y => a * g y) (List.replicate k (0 : ℝ)) w).sum =
        0 := by
  intro k
  induction k with
  | zero => intro w; simp
  | succ n ih =>
      intro w
      cases w with
      | nil => simp
      | cons y ys =>
          rw [List.replicate_succ, List.zipWith_cons_cons, List.sum_cons,
            ih ys]
          ring

lemma dotL_replicate_zero_left (k : ℕ) (w : List ℝ) :
    dotL (List.replicate k 0) w = 0 :=
  zipWith_replicate_zero_sum (fun y => y) k w

lemma vecMatMul_replicate_zero (k : ℕ) (m : List (List ℝ)) :
    vecMatMul (List.replicate k 0) m = List.replicate (numCols m) 0 := by
  rw [List.eq_replicate_iff]
  refine ⟨by simp [vecMatMul], ?_⟩
  intro b hb
  obtain ⟨j, hj, rfl⟩ := List.mem_map.mp hb
  exact zipWith_replicate_zero_sum (fun row => row.getD j 0) k m

lemma dotL_append (a₁ b₁ a₂ b₂ : List ℝ) (h : a₁.length = b₁.length) :
    dotL (a₁ ++ a₂) (b₁ ++ b₂) = dotL a₁ b₁ + dotL a₂ b₂ := by
  unfold dotL
  rw [List.zipWith_append _ _ _ _ _ h, List.sum_append]

lemma numCols_of_sq {M : List (List ℝ)} {b : ℕ} (hlen : M.length = b)
    (hr : ∀ r ∈ M, r.length = b) : numCols M = b := by
  cases M with
  | nil => simpa [numCols] using hlen
  | cons r rest => simpa [numCols] using hr r (by simp)

lemma getD_row_length {B : List (List ℝ)} {c : ℕ}
    (hB : ∀ r ∈ B, r.length = c) {i : ℕ} (hi : i < B.length) :
    (B.getD i []).length = c := by
  apply hB
  rw [List.getD_eq_getElem _ _ hi]
  exact List.getElem_mem _

lemma blockDiag_length (mats : List (List (List ℝ))) :
    (blockDiag mats).length = (mats.map List.length).sum := by
  induction mats with
  | nil => simp [blockDiag]
  | cons m rest ih => simp [blockDiag, ih]

lemma numCols_blockDiag (mats : List (List (List ℝ))) :
    numCols (blockDiag mats) = totalCols mats := by
  induction mats with
  | nil => simp [blockDiag, totalCols, numCols]
  | cons m rest ih =>
      cases m with
      | nil =>
          simp only [blockDiag, List.map_nil, List.nil_append]
          rw [show numCols ([] : List (List ℝ)) = 0 from rfl]
          simp only [List.replicate_zero, List.nil_append]
          rw [show ((blockDiag rest).map fun row => row) = blockDiag rest from
            List.map_id' _]
          rw [ih]
          simp [totalCols, numCols]
      | cons r rows =>
          simp [blockDiag, numCols, totalCols]

lemma blockDiag_row_length (mats : List (List (List ℝ)))
    (hr : ∀ M ∈ mats, ∀ r ∈ M, r.length = numCols M) :
    ∀ row ∈ blockDiag mats, row.length = totalCols mats := by
  induction mats with
  | nil => simp [blockDiag]
  | cons m rest ih =>
      intro row hrow
      simp only [blockDiag] at hrow
      rcases List.mem_append.mp hrow with hmem | hmem
      · obtain ⟨r, hrm, rfl⟩ := List.mem_map.mp hmem
        have hlen := hr m (by simp) r hrm
        simp [totalCols, hlen]
      · obtain ⟨r, hrr, rfl⟩ := List.mem_map.mp hmem
        have hlen := ih (fun M hM r' hrM => hr M (by simp [hM]) r' hrM) r hrr
        simp [totalCols, hlen]

lemma matVecMul_blockDiag_append (m : List (List ℝ))
    (rest : List (List (List ℝ))) (v₁ v₂ : List ℝ)
    (hm : ∀ r ∈ m, r.length = numCols m) (h1 : v₁.length = numCols m) :
    matVecMul (blockDiag (m :: rest)) (v₁ ++ v₂) =
      matVecMul m v₁ ++ matVecMul (blockDiag rest) v₂ := by
  simp only [blockDiag, matVecMul, List.map_append, List.map_map]
  congr 1
  · apply List.map_congr_left
    intro r hrm
    show dotL (r ++ List.replicate (totalCols rest) 0) (v₁ ++ v₂) = dotL r v₁
    rw [dotL_append r v₁ _ _ (by rw [hm r hrm, h1]),
      dotL_replicate_zero_left, add_zero]
  · apply List.map_congr_left
    intro r hrr
    show dotL (List.replicate (numCols m) 0 ++ r) (v₁ ++ v₂) = dotL r v₂
    rw [dotL_append _ v₁ _ _ (by simp [h1]),
      dotL_replicate_zero_left, zero_add]

lemma append_eq_append_iff_of_length {α : Type*} {a b c d : List α}
    (h : a.length = c.length) : a ++ b = c ++ d ↔ a = c ∧ b = d := by
  constructor
  · intro he
    exact List.append_inj he h
  · rintro ⟨rfl, rfl⟩
    rfl

/-- The quadratic form of a block-diagonal matrix of square `n × n` blocks
decomposes into the sum of the per-block quadratic forms of the
corresponding segments of the vector: distinct blocks contribute no cross
terms. -/
lemma quad_blockDiag (n : ℕ) :
    ∀ (mats : List (List (List ℝ))) (v : List ℝ),
      (∀ M ∈ mats, M.length = n ∧ ∀ r ∈ M, r.length = n) →
      v.length = mats.length * n →
      dotL v (matVecMul (blockDiag mats) v) =
        ∑ t ∈ Finset.range mats.length,
          dotL ((v.drop (t * n)).take n)
            (matVecMul (mats.getD t []) ((v.drop (t * n)).take n)) := by
  intro mats
  induction mats with
  | nil =>
      intro v _ _
      simp [blockDiag, matVecMul, dotL]
  | cons m rest ih =>
      intro v hwf hv
      obtain ⟨hm, hr⟩ := hwf m (by simp)
      have hcols : numCols m = n := numCols_of_sq hm hr
      have hvlen : v.length = rest.length * n + n := by
        rw [hv, List.length_cons]
        ring
      have htake : (v.take n).length = n := by
        rw [List.length_take]
        omega
      have hdrop : (v.drop n).length = rest.length * n := by
        rw [List.length_drop]
        omega
      have hsplit := List.take_append_drop n v
      conv_lhs => rw [← hsplit]
      rw [matVecMul_blockDiag_append m rest _ _
          (fun r hrm => by rw [hcols]; exact hr r hrm)
          (by rw [htake, hcols]),
        dotL_append _ _ _ _ (by rw [htake, length_matVecMul, hm]),
        ih (v.drop n) (fun M hM => hwf M (List.mem_cons_of_mem _ hM)) hdrop,
        List.length_cons, Finset.sum_range_succ', add_comm]
      congr 1
      · refine Finset.sum_congr rfl fun t _ => ?_
        rw [List.getD_cons_succ, show (t + 1) * n = n + t * n from by ring,
          ← List.drop_drop]
      · simp

/-- A block-diagonal matrix of square `n × n` blocks annihilates a vector
iff each block annihilates the corresponding segment. -/
lemma matVecMul_blockDiag_eq_zero_iff (n : ℕ) :
    ∀ (mats : List (List (List ℝ))) (v : List ℝ),
      (∀ M ∈ mats, M.length = n ∧ ∀ r ∈ M, r.length = n) →
      v.length = mats.length * n →
      (matVecMul (blockDiag mats) v = List.replicate (mats.length * n) 0 ↔
        ∀ t < mats.length,
          matVecMul (mats.getD t []) ((v.drop (t * n)).take n) =
            List.replicate n 0) := by
  intro mats
  induction mats with
  | nil =>
      intro v _ _
      simp [blockDiag, matVecMul]
  | cons m rest ih =>
      intro v hwf hv
      obtain ⟨hm, hr⟩ := hwf m (by simp)
      have hcols : numCols m = n := numCols_of_sq hm hr
      have hvlen : v.length = rest.length * n + n := by
        rw [hv, List.length_cons]
        ring
      have htake : (v.take n).length = n := by
        rw [List.length_take]
        omega
      have hdrop : (v.drop n).length = rest.length * n := by
        rw [List.length_drop]
        omega
      have hsplit := List.take_append_drop n v
      conv_lhs => rw [← hsplit]
      rw [matVecMul_blockDiag_append m rest _ _
          (fun r hrm => by rw [hcols]; exact hr r hrm)
          (by rw [htake, hcols]),
        List.length_cons,
        show (rest.length + 1) * n = n + rest.length * n from by ring,
        List.replicate_add,
        append_eq_append_iff_of_length
          (by rw [length_matVecMul, hm, List.length_replicate]),
        ih (v.drop n) (fun M hM => hwf M (List.mem_cons_of_mem _ hM)) hdrop]
      constructor
      · rintro ⟨h0, hrest⟩ t ht
        cases t with
        | zero => simpa using h0
        | succ t' =>
            rw [List.getD_cons_succ,
              show (t' + 1) * n = n + t' * n from by ring, ← List.drop_drop]
            exact hrest t' (by omega)
      · intro hall
        refine ⟨by simpa using hall 0 (by omega), fun t ht => ?_⟩
        have := hall (t + 1) (by omega)
        rw [List.getD_cons_succ, show (t + 1) * n = n + t * n from by ring,
          ← List.drop_drop] at this
        exact this

/-- Transposition identity for the two orientations of the quadratic
form: `(v @ B) @ w = v @ (B @ w)`. -/
lemma dotL_vecMatMul_swap (B : List (List ℝ)) (v w : List ℝ)
    (hB : ∀ r ∈ B, r.length = numCols B)
    (hv : v.length = B.length) (hw : w.length = numCols B) :
    dotL (vecMatMul v B) w = dotL v (matVecMul B w) := by
  rw [dotL_eq_sum _ _ (by rw [length_vecMatMul, hw]), length_vecMatMul,
    dotL_eq_sum _ _ (by rw [length_matVecMul, hv])]
  calc
    ∑ j ∈ Finset.range (numCols B),
        (vecMatMul v B).getD j 0 * w.getD j 0
      = ∑ j ∈ Finset.range (numCols B), ∑ i ∈ Finset.range v.length,
          v.getD i 0 * (B.getD i []).getD j 0 * w.getD j 0 := by
        refine Finset.sum_congr rfl fun j hj => ?_
        rw [vecMatMul_getD v B hv j (Finset.mem_range.mp hj), Finset.sum_mul]
    _ = ∑ i ∈ Finset.range v.length, ∑ j ∈ Finset.range (numCols B),
          v.getD i 0 * ((B.getD i []).getD j 0 * w.getD j 0) := by
        rw [Finset.sum_comm]
        exact Finset.sum_congr rfl fun i _ =>
          Finset.sum_congr rfl fun j _ => by ring
    _ = ∑ i ∈ Finset.range v.length, v.getD i 0 * (matVecMul B w).getD i 0 := by
        refine Finset.sum_congr rfl fun i hi => ?_
        rw [← Finset.mul_sum]
        congr 1
        have hiB : (i : ℕ) < B.length := by
          rw [← hv]
          exact Finset.mem_range.mp hi
        rw [matVecMul_getD B w i hiB,
          dotL_eq_sum _ _ (by rw [getD_row_length hB hiB, hw]),
          getD_row_length hB hiB]

/-- The Gaussian quadratic form written as an explicit double sum over
matrix entries. -/
lemma dotL_vecMatMul_double_sum (B : List (List ℝ)) (v : List ℝ)
    (hB : ∀ r ∈ B, r.length = numCols B)
    (hv : v.length = B.length) (hvc : v.length = numCols B) :
    dotL (vecMatMul v B) v =
      ∑ a ∈ Finset.range v.length, ∑ b ∈ Finset.range v.length,
        v.getD a 0 * (B.getD a []).getD b 0 * v.getD b 0 := by
  rw [dotL_vecMatMul_swap B v v hB hv hvc,
    dotL_eq_sum _ _ (by rw [length_matVecMul, hv])]
  refine Finset.sum_congr rfl fun a ha => ?_
  have haB : (a : ℕ) < B.length := by
    rw [← hv]
    exact Finset.mem_range.mp ha
  rw [matVecMul_getD B v a haB,
    dotL_eq_sum _ _ (by rw [getD_row_length hB haB, hvc]),
    getD_row_length hB haB, ← hvc, Finset.mul_sum]
  exact Finset.sum_congr rfl fun b _ => by ring

lemma mulVec_toMat_apply (n : ℕ) (M : List (List ℝ)) (v : List ℝ)
    (hM : M.length = n) (hr : ∀ r ∈ M, r.length = n) (hv : v.length = n)
    (i : Fin n) :
    (toMat n M).mulVec (toVec n v) i = (matVecMul M v).getD (i : ℕ) 0 := by
  have hiM : (i : ℕ) < M.length := by
    rw [hM]
    exact i.isLt
  rw [matVecMul_getD M v i hiM,
    dotL_eq_sum _ _ (by rw [getD_row_length hr hiM, hv]),
    getD_row_length hr hiM]
  show ∑ j : Fin n,
      (M.getD (i : ℕ) []).getD (j : ℕ) 0 * v.getD (j : ℕ) 0 = _
  exact Fin.sum_univ_eq_sum_range
    (fun k => (M.getD (i : ℕ) []).getD k 0 * v.getD k 0) n

lemma dotL_matVecMul_toMat (n : ℕ) (M : List (List ℝ)) (v : List ℝ)
    (hM : M.length = n) (hr : ∀ r ∈ M, r.length = n) (hv : v.length = n) :
    dotL v (matVecMul M v) =
      Matrix.dotProduct (toVec n v) ((toMat n M).mulVec (toVec n v)) := by
  have h1 : Matrix.dotProduct (toVec n v) ((toMat n M).mulVec (toVec n v)) =
      ∑ i : Fin n, v.getD (i : ℕ) 0 * (matVecMul M v).getD (i : ℕ) 0 := by
    rw [Matrix.dotProduct]
    refine Finset.sum_congr rfl fun i _ => ?_
    rw [mulVec_toMat_apply n M v hM hr hv i]
    rfl
  rw [h1, Fin.sum_univ_eq_sum_range
      (fun k => v.getD k 0 * (matVecMul M v).getD k 0) n,
    dotL_eq_sum _ _ (by rw [length_matVecMul, hM, hv]), hv]

lemma matVecMul_eq_zero_iff_mulVec (n : ℕ) (M : List (List ℝ)) (v : List ℝ)
    (hM : M.length = n) (hr : ∀ r ∈ M, r.length = n) (hv : v.length = n) :
    matVecMul M v = List.replicate n 0 ↔
      (toMat n M).mulVec (toVec n v) = 0 := by
  constructor
  · intro h
    funext i
    rw [Pi.zero_apply, mulVec_toMat_apply n M v hM hr hv i, h,
      List.getD_eq_getElem _ _ (by simp [i.isLt]),
      List.getElem_replicate]
  · intro h
    rw [List.eq_replicate_iff]
    refine ⟨by rw [length_matVecMul, hM], fun b hb => ?_⟩
    obtain ⟨i, hi, rfl⟩ := List.mem_iff_getElem.mp hb
    have hin : i < n := by rwa [length_matVecMul, hM] at hi
    have hcf := congrFun h ⟨i, hin⟩
    rw [Pi.zero_apply, mulVec_toMat_apply n M v hM hr hv ⟨i, hin⟩] at hcf
    rwa [List.getD_eq_getElem _ _ hi] at hcf

lemma sum_map_const {α : Type*} (l : List α) (f : α → ℕ) (c : ℕ)
    (h : ∀ x ∈ l, f x = c) : (l.map f).sum = l.length * c := by
  have he : l.map f = List.replicate l.length c := by
    rw [List.eq_replicate_iff]
    refine ⟨by simp, fun b hb => ?_⟩
    obtain ⟨x, hx, rfl⟩ := List.mem_map.mp hb
    exact h x hx
  rw [he, List.sum_replicate, smul_eq_mul]

lemma blockDiag_length_of_wf (t : TemplateCollection) (hwf : t.matsWF) :
    (blockDiag t.inv_corr_mats).length =
      t.num_templates * t.num_bins := by
  rw [blockDiag_length,
    sum_map_const _ _ t.num_bins (fun M hM => (hwf.2 M hM).1), hwf.1]

lemma totalCols_of_wf (t : TemplateCollection) (hwf : t.matsWF) :
    totalCols t.inv_corr_mats = t.num_templates * t.num_bins := by
  unfold totalCols
  rw [sum_map_const _ _ t.num_bins
      (fun M hM => numCols_of_sq (hwf.2 M hM).1 (hwf.2 M hM).2), hwf.1]

lemma blockDiag_rows_of_wf (t : TemplateCollection) (hwf : t.matsWF) :
    ∀ row ∈ blockDiag t.inv_corr_mats,
      row.length = numCols (blockDiag t.inv_corr_mats) := by
  intro row hrow
  rw [numCols_blockDiag]
  refine blockDiag_row_length _ ?_ row hrow
  intro M hM r hrM
  rw [(hwf.2 M hM).2 r hrM, numCols_of_sq (hwf.2 M hM).1 (hwf.2 M hM).2]

/-- Evaluation of the advanced cost function on a well-shaped input:
all NumPy shape checks pass and the result is the Poisson term plus the
Gaussian term. -/
lemma advanced_call_eq (hdata : DataHistogram) (t : TemplateCollection)
    (x : List ℝ) (hwf : t.matsWF)
    (hfr : (t.bin_fractions (some (x.drop t.num_templates))).length =
      t.num_templates)
    (hobs : hdata.bin_counts.length =
      numCols (t.bin_fractions (some (x.drop t.num_templates))))
    (hx : x.length = t.num_templates + t.num_templates * t.num_bins) :
    (advancedInit hdata t).call x =
      some ((List.zipWith (fun e o => e - o * Real.log e)
          (vecMatMul (x.take t.num_templates)
            (t.bin_fractions (some (x.drop t.num_templates))))
          hdata.bin_counts).sum +
        0.5 * dotL (vecMatMul (x.drop t.num_templates)
            (blockDiag t.inv_corr_mats)) (x.drop t.num_templates)) := by
  have htake : (x.take t.num_templates).length = t.num_templates := by
    rw [List.length_take]
    omega
  have hdrop : (x.drop t.num_templates).length =
      t.num_templates * t.num_bins := by
    rw [List.length_drop]
    omega
  have hbd := blockDiag_length_of_wf t hwf
  have hgv : (vecMatMul (x.drop t.num_templates)
      (blockDiag t.inv_corr_mats)).length =
      t.num_templates * t.num_bins := by
    rw [length_vecMatMul, numCols_blockDiag, totalCols_of_wf t hwf]
  simp only [AdvancedPoissonNegativeLogLikelihood.call, advancedInit,
    vecMatMulChk, dotChk, poissonChk]
  rw [if_pos (htake.trans hfr.symm)]
  simp only [Option.some_bind]
  rw [if_pos (by rw [length_vecMatMul]; exact hobs)]
  simp only [Option.some_bind]
  rw [if_pos (hdrop.trans hbd.symm)]
  simp only [Option.some_bind]
  rw [if_pos (hgv.trans hdrop.symm)]
  simp only [Option.map_some']

/-- Evaluation of the simple cost function on a well-shaped input. -/
lemma simple_call_eq (hdata : DataHistogram) (t : TemplateCollection)
    (x : List ℝ) (hfr : x.length = (t.bin_fractions none).length)
    (hobs : hdata.bin_counts.length = numCols (t.bin_fractions none)) :
    (⟨hdata, t⟩ : SimplePoissonNegativeLogLikelihood).call x =
      some ((List.zipWith (fun e o => e - o * Real.log e)
        (vecMatMul x (t.bin_fractions none)) hdata.bin_counts).sum) := by
  simp only [SimplePoissonNegativeLogLikelihood.call, vecMatMulChk,
    poissonChk]
  rw [if_pos hfr]
  simp only [Option.some_bind]
  rw [if_pos (by rw [length_vecMatMul]; exact hobs)]

lemma option_bind_const_none {α β : Type*} (o : Option α) :
    (o.bind fun _ => (none : Option β)) = none := by
  cases o <;> rfl

lemma option_bind_some_id {α : Type*} (o : Option α) : o.bind some = o := by
  cases o <;> rfl

lemma simple_callExt_eq (hdata : DataHistogram) (t : TemplateCollection)
    (x : List ℝ) (hfr : x.length = (t.bin_fractions none).length)
    (hobs : hdata.bin_counts.length = numCols (t.bin_fractions none)) :
    (⟨hdata, t⟩ : SimplePoissonNegativeLogLikelihood).callExt x =
      some ((List.zipWith (fun (e o : ℝ) => (e : EReal) - (o : EReal) * elog e)
        (vecMatMul x (t.bin_fractions none)) hdata.bin_counts).sum) := by
  simp only [SimplePoissonNegativeLogLikelihood.callExt, vecMatMulChk,
    poissonExtChk]
  rw [if_pos hfr]
  simp only [Option.some_bind]
  rw [if_pos (by rw [length_vecMatMul]; exact hobs)]

lemma ereal_sum_ne_bot : ∀ l : List EReal, ⊥ ∉ l → l.sum ≠ ⊥ := by
  intro l
  induction l with
  | nil => intro _; simp
  | cons a t ih =>
      intro hb
      rw [List.sum_cons]
      intro hcontra
      rcases EReal.add_eq_bot_iff.mp hcontra with h | h
      · subst h
        exact hb (List.mem_cons_self _ _)
      · exact ih (fun hm => hb (List.mem_cons_of_mem _ hm)) h

lemma ereal_sum_eq_top : ∀ l : List EReal, ⊤ ∈ l → ⊥ ∉ l → l.sum = ⊤ := by
  intro l
  induction l with
  | nil => intro ht _; simp at ht
  | cons a t ih =>
      intro ht hb
      rw [List.sum_cons]
      rcases List.mem_cons.mp ht with h | h
      · rw [← h]
        exact EReal.top_add_of_ne_bot
          (ereal_sum_ne_bot t (fun hm => hb (List.mem_cons_of_mem _ hm)))
      · rw [ih h (fun hm => hb (List.mem_cons_of_mem _ hm))]
        exact EReal.add_top_of_ne_bot
          (fun ha => hb (by rw [← ha]; exact List.mem_cons_self _ _))

/-- The per-bin extended Poisson term is a finite real when the expected
count is positive. -/
lemma poisson_ext_term_pos (e o : ℝ) (he : 0 < e) :
    (e : EReal) - (o : EReal) * elog e =
      (((e - o * Real.log e : ℝ)) : EReal) := by
  rw [elog, if_neg (ne_of_gt he)]
  push_cast
  rfl

/-- The per-bin extended Poisson term is `+∞` when the expected count is
zero and the observed count positive: `0 - o * (-∞) = +∞`. -/
lemma poisson_ext_term_zero (o : ℝ) (ho : 0 < o) :
    ((0 : ℝ) : EReal) - (o : EReal) * elog 0 = ⊤ := by
  rw [elog, if_pos rfl, EReal.coe_mul_bot_of_pos ho, EReal.coe_sub_bot]

lemma getD_append_right' {α : Type*} (d : α) :
    ∀ (l m : List α) (k : ℕ), (l ++ m).getD (l.length + k) d = m.getD k d := by
  intro l
  induction l with
  | nil => intro m k; simp
  | cons a l ih =>
      intro m k
      rw [List.cons_append, List.length_cons,
        show l.length + 1 + k = (l.length + k) + 1 from by ring,
        List.getD_cons_succ, ih]

lemma flatten_getD_uniform {α : Type*} (d : α) (c : ℕ) :
    ∀ (L : List (List α)), (∀ l ∈ L, l.length = c) →
      ∀ (t b : ℕ), t < L.length → b < c →
        L.flatten.getD (t * c + b) d = (L.getD t []).getD b d := by
  intro L
  induction L with
  | nil => intro _ t b ht _; simp at ht
  | cons l rest ih =>
      intro hc t b ht hb
      cases t with
      | zero =>
          rw [List.flatten_cons, show 0 * c + b = b from by ring,
            List.getD_cons_zero]
          have hbl : b < l.length := by
            rw [hc l (by simp)]
            exact hb
          rw [List.getD_eq_getElem _ _ (by simp; omega),
            List.getElem_append_left hbl]
          exact (List.getD_eq_getElem l d hbl).symm
      | succ t' =>
          rw [List.flatten_cons]
          have hll : l.length = c := hc l (by simp)
          rw [show (t' + 1) * c + b = l.length + (t' * c + b) from by
              rw [hll]; ring,
            getD_append_right', List.getD_cons_succ]
          exact ih (fun l' hl' => hc l' (by simp [hl'])) t' b
            (by simpa using ht) hb

lemma numCols_of_rows {M : List (List ℝ)} {b : ℕ}
    (hr : ∀ r ∈ M, r.length = b) (hne : M.length ≠ 0) : numCols M = b := by
  cases M with
  | nil => simp at hne
  | cons r rest => simpa [numCols] using hr r (by simp)

/-- C2: for every input vector of matching length, the simple cost
function returns `∑ i (expected i - observed i * log (expected i))` with
`expected = x @ bin_fractions()`; for the 2-template, 3-bin reference
configuration with fractions `[[0.5,0.3,0.2],[0.2,0.3,0.5]]` and yields
`[100, 50]`, the expected per-bin yields are `[60, 45, 45]` and the value
is the direct substitution into the formula. -/
theorem claim_C2_simple_call_formula :
    (∀ (hdata : DataHistogram) (t : TemplateCollection) (x : List ℝ),
      x.length = (t.bin_fractions none).length →
      hdata.bin_counts.length = numCols (t.bin_fractions none) →
      (⟨hdata, t⟩ : SimplePoissonNegativeLogLikelihood).call x =
        some (∑ i ∈ Finset.range hdata.bin_counts.length,
          ((∑ k ∈ Finset.range x.length,
              x.getD k 0 * ((t.bin_fractions none).getD k []).getD i 0) -
            hdata.bin_counts.getD i 0 *
              Real.log (∑ k ∈ Finset.range x.length,
                x.getD k 0 *
                  ((t.bin_fractions none).getD k []).getD i 0)))) ∧
    vecMatMul [100, 50] (templatesC.bin_fractions none) = [60, 45, 45] ∧
    (⟨hdataC, templatesC⟩ : SimplePoissonNegativeLogLikelihood).call
        [100, 50] =
      some (150 - 60 * Real.log 60 - 90 * Real.log 45) := by
  refine ⟨?_, ?_, ?_⟩
  · intro hdata t x hfr hobs
    rw [simple_call_eq hdata t x hfr hobs]
    congr 1
    rw [zipWith_sum_eq _ 0 0 _ _ (by rw [length_vecMatMul, hobs]),
      length_vecMatMul, ← hobs]
    refine Finset.sum_congr rfl fun i hi => ?_
    have hi' : i < numCols (t.bin_fractions none) := by
      rw [← hobs]
      exact Finset.mem_range.mp hi
    rw [vecMatMul_getD x _ hfr i hi']
  · norm_num [templatesC, fractionsC, vecMatMul, numCols, List.range_succ]
  · rw [simple_call_eq hdataC templatesC [100, 50]
      (by norm_num [templatesC, fractionsC])
      (by norm_num [templatesC, fractionsC, numCols, hdataC])]
    congr 1
    norm_num [templatesC, fractionsC, hdataC, vecMatMul, numCols,
      List.range_succ]
    ring_nf

/-- C2 witness: the general formula applied at the reference
configuration. -/
theorem claim_C2_witness :
    ((⟨hdataC, templatesC⟩ : SimplePoissonNegativeLogLikelihood).call
        [100, 50]).isSome = true := by
  rw [claim_C2_simple_call_formula.1 hdataC templatesC [100, 50]
    (by norm_num [templatesC, fractionsC])
    (by norm_num [templatesC, fractionsC, numCols, hdataC])]
  rfl

/-- C1: the advanced cost function splits `x` into the yields (first
`num_templates` entries) and the nuisance parameters (the rest), queries
`bin_fractions` with the nuisance part, and returns the Poisson term
`∑ i (expected i - observed i * log (expected i))` with
`expected = poi @ fractions` plus the Gaussian term
`0.5 * nuissᵀ · BlockDiagInvCorr · nuiss`. -/
theorem claim_C1_advanced_call_formula (hdata : DataHistogram)
    (t : TemplateCollection) (x : List ℝ) (hwf : t.matsWF)
    (hfr : (t.bin_fractions (some (x.drop t.num_templates))).length =
      t.num_templates)
    (hfrRows : ∀ r ∈ t.bin_fractions (some (x.drop t.num_templates)),
      r.length = t.num_bins)
    (hobs : hdata.bin_counts.length = t.num_bins)
    (hnt : t.num_templates ≠ 0)
    (hx : x.length = t.num_templates + t.num_templates * t.num_bins) :
    (advancedInit hdata t).call x =
      some ((∑ i ∈ Finset.range t.num_bins,
          ((∑ k ∈ Finset.range t.num_templates,
              (x.take t.num_templates).getD k 0 *
                ((t.bin_fractions
                  (some (x.drop t.num_templates))).getD k []).getD i 0) -
            hdata.bin_counts.getD i 0 *
              Real.log (∑ k ∈ Finset.range t.num_templates,
                (x.take t.num_templates).getD k 0 *
                  ((t.bin_fractions
                    (some (x.drop t.num_templates))).getD k []).getD i 0))) +
        0.5 * ∑ a ∈ Finset.range (t.num_templates * t.num_bins),
          ∑ b ∈ Finset.range (t.num_templates * t.num_bins),
            (x.drop t.num_templates).getD a 0 *
              ((blockDiag t.inv_corr_mats).getD a []).getD b 0 *
              (x.drop t.num_templates).getD b 0) := by
  have hcols : numCols (t.bin_fractions (some (x.drop t.num_templates))) =
      t.num_bins :=
    numCols_of_rows hfrRows (by rw [hfr]; exact hnt)
  have htake : (x.take t.num_templates).length = t.num_templates := by
    rw [List.length_take]
    omega
  have hdrop : (x.drop t.num_templates).length =
      t.num_templates * t.num_bins := by
    rw [List.length_drop]
    omega
  rw [advanced_call_eq hdata t x hwf hfr (by rw [hcols]; exact hobs) hx]
  congr 1
  congr 1
  · rw [zipWith_sum_eq _ 0 0 _ _
        (by rw [length_vecMatMul, hcols, hobs]),
      length_vecMatMul, hcols]
    refine Finset.sum_congr rfl fun i hi => ?_
    rw [vecMatMul_getD _ _ (htake.trans hfr.symm) i
        (by rw [hcols]; exact Finset.mem_range.mp hi), htake]
  · congr 1
    rw [dotL_vecMatMul_double_sum (blockDiag t.inv_corr_mats)
        (x.drop t.num_templates) (blockDiag_rows_of_wf t hwf)
        (hdrop.trans (blockDiag_length_of_wf t hwf).symm)
        (by rw [hdrop, numCols_blockDiag, totalCols_of_wf t hwf]),
      hdrop]

/-- C1 witness: the formula applied at the reference configuration with an
all-zero nuisance part. -/
theorem claim_C1_witness :
    ((advancedInit hdataC templatesC).call
        [100, 50, 0, 0, 0, 0, 0, 0]).isSome = true := by
  rw [claim_C1_advanced_call_formula hdataC templatesC
    [100, 50, 0, 0, 0, 0, 0, 0] (by decide)
    (by norm_num [templatesC, fractionsC])
    (by norm_num [templatesC, fractionsC])
    (by norm_num [hdataC, templatesC])
    (by norm_num [templatesC])
    (by norm_num [templatesC])]
  rfl

/-- C3: when the nuisance part of the input is all zeros and
`bin_fractions` at the zero nuisance vector equals the nominal
`bin_fractions`, the advanced cost function agrees with the simple one at
the same yields, and the Gaussian term is exactly zero. -/
theorem claim_C3_zero_nuisance_reduction (hdata : DataHistogram)
    (t : TemplateCollection) (y : List ℝ) (hwf : t.matsWF)
    (hz : t.bin_fractions
        (some (List.replicate (t.num_templates * t.num_bins) 0)) =
      t.bin_fractions none)
    (hylen : y.length = t.num_templates) :
    (advancedInit hdata t).call
        (y ++ List.replicate (t.num_templates * t.num_bins) 0) =
      (⟨hdata, t⟩ : SimplePoissonNegativeLogLikelihood).call y ∧
    dotL (vecMatMul (List.replicate (t.num_templates * t.num_bins) 0)
        (blockDiag t.inv_corr_mats))
      (List.replicate (t.num_templates * t.num_bins) 0) = 0 := by
  have htake : (y ++ List.replicate (t.num_templates * t.num_bins)
      (0 : ℝ)).take t.num_templates = y := by
    rw [← hylen]
    exact List.take_left y _
  have hdrop : (y ++ List.replicate (t.num_templates * t.num_bins)
      (0 : ℝ)).drop t.num_templates =
      List.replicate (t.num_templates * t.num_bins) 0 := by
    rw [← hylen]
    exact List.drop_left y _
  constructor
  · simp only [AdvancedPoissonNegativeLogLikelihood.call, advancedInit,
      SimplePoissonNegativeLogLikelihood.call]
    rw [htake, hdrop, hz]
    have h1 : vecMatMulChk (List.replicate (t.num_templates * t.num_bins) 0)
        (blockDiag t.inv_corr_mats) =
        some (List.replicate (numCols (blockDiag t.inv_corr_mats)) 0) := by
      rw [vecMatMulChk,
        if_pos (by rw [List.length_replicate, blockDiag_length_of_wf t hwf]),
        vecMatMul_replicate_zero]
    have h2 : dotChk (List.replicate (numCols (blockDiag t.inv_corr_mats)) 0)
        (List.replicate (t.num_templates * t.num_bins) 0) = some 0 := by
      rw [dotChk, if_pos (by
          rw [List.length_replicate, List.length_replicate,
            numCols_blockDiag, totalCols_of_wf t hwf]),
        dotL_replicate_zero_left]
    simp only [h1, h2, Option.some_bind, Option.map_some', mul_zero,
      add_zero, option_bind_some_id]
  · rw [vecMatMul_replicate_zero, dotL_replicate_zero_left]

/-- C3 witness: the reduction at the reference configuration (whose
fraction function is nuisance-independent). -/
theorem claim_C3_witness :
    (advancedInit hdataC templatesC).call
        ([100, 50] ++ List.replicate 6 0) =
      (⟨hdataC, templatesC⟩ : SimplePoissonNegativeLogLikelihood).call
        [100, 50] :=
  (claim_C3_zero_nuisance_reduction hdataC templatesC [100, 50] (by decide)
    rfl (by norm_num [templatesC])).1

/-- C4: the matrix cached at construction is the block-diagonal assembly
of the inverse correlation matrices (for two `2 × 2` matrices `A`, `B`:
`A` top-left, `B` bottom-right, zeros elsewhere), and for every nuisance
vector the Gaussian quadratic form decomposes into per-template quadratic
forms — pairs of nuisance parameters from different templates contribute
exactly zero. -/
theorem claim_C4_block_diagonal :
    (∀ (hdata : DataHistogram) (tc : TemplateCollection)
        (a₁ a₂ a₃ a₄ b₁ b₂ b₃ b₄ : ℝ),
      tc.inv_corr_mats = [[[a₁, a₂], [a₃, a₄]], [[b₁, b₂], [b₃, b₄]]] →
      (advancedInit hdata tc).block_diag_inv_corr_mats =
        [[a₁, a₂, 0, 0], [a₃, a₄, 0, 0],
         [0, 0, b₁, b₂], [0, 0, b₃, b₄]]) ∧
    (∀ (n : ℕ) (mats : List (List (List ℝ))) (v : List ℝ),
      (∀ M ∈ mats, M.length = n ∧ ∀ r ∈ M, r.length = n) →
      v.length = mats.length * n →
      dotL (vecMatMul v (blockDiag mats)) v =
        ∑ t ∈ Finset.range mats.length,
          dotL (vecMatMul ((v.drop (t * n)).take n) (mats.getD t []))
            ((v.drop (t * n)).take n)) := by
  constructor
  · intro hdata tc a₁ a₂ a₃ a₄ b₁ b₂ b₃ b₄ hmats
    show blockDiag tc.inv_corr_mats = _
    rw [hmats]
    rfl
  · intro n mats v hwf hv
    have hsq : ∀ M ∈ mats, ∀ r ∈ M, r.length = numCols M := by
      intro M hM r hrM
      rw [(hwf M hM).2 r hrM, numCols_of_sq (hwf M hM).1 (hwf M hM).2]
    have hBrows : ∀ r ∈ blockDiag mats,
        r.length = numCols (blockDiag mats) := by
      intro r hr
      rw [numCols_blockDiag]
      exact blockDiag_row_length mats hsq r hr
    have hBlen : (blockDiag mats).length = mats.length * n := by
      rw [blockDiag_length, sum_map_const _ _ n fun M hM => (hwf M hM).1]
    have htot : totalCols mats = mats.length * n := by
      rw [totalCols, sum_map_const _ _ n
        fun M hM => numCols_of_sq (hwf M hM).1 (hwf M hM).2]
    rw [dotL_vecMatMul_swap (blockDiag mats) v v hBrows
        (hv.trans hBlen.symm) (by rw [numCols_blockDiag, htot, hv]),
      quad_blockDiag n mats v hwf hv]
    refine Finset.sum_congr rfl fun t ht => ?_
    have htm : t < mats.length := Finset.mem_range.mp ht
    have hmem : mats.getD t [] ∈ mats := by
      rw [List.getD_eq_getElem _ _ htm]
      exact List.getElem_mem _
    have hseg : ((v.drop (t * n)).take n).length = n := by
      rw [List.length_take, List.length_drop]
      have h1 : t + 1 ≤ mats.length := htm
      have h2 : (t + 1) * n ≤ mats.length * n := Nat.mul_le_mul_right n h1
      have h3 : t * n + n ≤ v.length := by
        rw [hv]
        calc t * n + n = (t + 1) * n := by ring
          _ ≤ mats.length * n := h2
      omega
    rw [dotL_vecMatMul_swap (mats.getD t []) _ _
      (fun r hr => by
        rw [(hwf _ hmem).2 r hr,
          numCols_of_sq (hwf _ hmem).1 (hwf _ hmem).2])
      (by rw [hseg, (hwf _ hmem).1])
      (by rw [hseg, numCols_of_sq (hwf _ hmem).1 (hwf _ hmem).2])]

/-- C4 witness: the assembly equation at two concrete `2 × 2` matrices. -/
theorem claim_C4_witness :
    (advancedInit hdataC
        { templatesC with
          inv_corr_mats :=
            [[[1, 2], [3, 4]], [[5, 6], [7, 8]]] }).block_diag_inv_corr_mats =
      [[1, 2, 0, 0], [3, 4, 0, 0], [0, 0, 5, 6], [0, 0, 7, 8]] :=
  claim_C4_block_diagonal.1 hdataC _ 1 2 3 4 5 6 7 8 rfl

/-- C5: when some bin has zero expected count while its observed count is
positive (and every other bin is in the domain where IEEE arithmetic
produces finite values), the simple cost function evaluates to positive
infinity — a returned `+∞`, not an exception and not a finite value. -/
theorem claim_C5_zero_expected_gives_top (hdata : DataHistogram)
    (t : TemplateCollection) (x : List ℝ)
    (hfr : x.length = (t.bin_fractions none).length)
    (hobs : hdata.bin_counts.length = numCols (t.bin_fractions none))
    (hdom : ∀ j < (vecMatMul x (t.bin_fractions none)).length,
      0 < (vecMatMul x (t.bin_fractions none)).getD j 0 ∨
        ((vecMatMul x (t.bin_fractions none)).getD j 0 = 0 ∧
          0 < hdata.bin_counts.getD j 0))
    (hzero : ∃ i < (vecMatMul x (t.bin_fractions none)).length,
      (vecMatMul x (t.bin_fractions none)).getD i 0 = 0) :
    (⟨hdata, t⟩ : SimplePoissonNegativeLogLikelihood).callExt x =
      some ⊤ := by
  have hlen : (vecMatMul x (t.bin_fractions none)).length =
      hdata.bin_counts.length := by
    rw [length_vecMatMul, hobs]
  rw [simple_callExt_eq hdata t x hfr hobs]
  congr 1
  have hterm : ∀ (j : ℕ)
      (hj1 : j < (List.zipWith
        (fun (e o : ℝ) => (e : EReal) - (o : EReal) * elog e)
        (vecMatMul x (t.bin_fractions none)) hdata.bin_counts).length),
      (List.zipWith (fun (e o : ℝ) => (e : EReal) - (o : EReal) * elog e)
        (vecMatMul x (t.bin_fractions none)) hdata.bin_counts)[j] =
        ((vecMatMul x (t.bin_fractions none)).getD j 0 : EReal) -
          (hdata.bin_counts.getD j 0 : EReal) *
            elog ((vecMatMul x (t.bin_fractions none)).getD j 0) := by
    intro j hj1
    have hj : j < (vecMatMul x (t.bin_fractions none)).length := by
      rw [List.length_zipWith] at hj1
      omega
    rw [List.getElem_zipWith,
      List.getD_eq_getElem _ _ hj, List.getD_eq_getElem _ _ (by omega)]
  apply ereal_sum_eq_top
  · obtain ⟨i, hi, hzi⟩ := hzero
    have hbound : i < (List.zipWith
        (fun (e o : ℝ) => (e : EReal) - (o : EReal) * elog e)
        (vecMatMul x (t.bin_fractions none)) hdata.bin_counts).length := by
      rw [List.length_zipWith]
      omega
    rw [List.mem_iff_getElem]
    refine ⟨i, hbound, ?_⟩
    rw [hterm i hbound, hzi]
    rcases hdom i hi with hpos | ⟨_, hop⟩
    · rw [hzi] at hpos
      exact absurd hpos (lt_irrefl 0)
    · exact poisson_ext_term_zero _ hop
  · intro hmem
    obtain ⟨k, hk, hEq⟩ := List.mem_iff_getElem.mp hmem
    have hk2 : k < (vecMatMul x (t.bin_fractions none)).length := by
      rw [List.length_zipWith] at hk
      omega
    rw [hterm k hk] at hEq
    rcases hdom k hk2 with hpos | ⟨hz, hop⟩
    · rw [poisson_ext_term_pos _ _ hpos] at hEq
      exact EReal.coe_ne_bot _ hEq
    · rw [hz, poisson_ext_term_zero _ hop] at hEq
      simp at hEq

/-- C5 witness: a 1-template, 2-bin configuration whose first bin has zero
fraction and positive observed count. -/
theorem claim_C5_witness :
    (⟨hdataZ, templatesZ⟩ : SimplePoissonNegativeLogLikelihood).callExt
        [1] = some ⊤ := by
  apply claim_C5_zero_expected_gives_top hdataZ templatesZ [1]
  · norm_num [templatesZ]
  · norm_num [templatesZ, hdataZ, numCols]
  · intro j hj
    simp only [templatesZ, hdataZ, vecMatMul, numCols] at hj ⊢
    norm_num [List.range_succ] at hj ⊢
    interval_cases j <;> norm_num
  · refine ⟨0, ?_, ?_⟩ <;>
      norm_num [templatesZ, vecMatMul, numCols, List.range_succ]

/-- C6: for well-formed instances of either variant, evaluating at an
input whose length differs from the length of `x0` is rejected (the NumPy
matrix product raises, modelled as `none`) rather than silently truncating
or padding. -/
theorem claim_C6_length_mismatch_rejected (hdata : DataHistogram)
    (t : TemplateCollection) (y x : List ℝ)
    (hy : t.yield_values = some y)
    (hylen : y.length = t.num_templates)
    (hfrS : (t.bin_fractions none).length = t.num_templates)
    (hwf : t.matsWF)
    (hnlen : t.nuiss_param_values.length = t.num_templates * t.num_bins)
    (hpos : t.num_templates * t.num_bins ≠ 0) :
    ((⟨hdata, t⟩ : SimplePoissonNegativeLogLikelihood).x0 = some y ∧
      (x.length ≠ y.length →
        (⟨hdata, t⟩ : SimplePoissonNegativeLogLikelihood).call x = none)) ∧
    ((advancedInit hdata t).x0 = some (y ++ t.nuiss_param_values) ∧
      (x.length ≠ (y ++ t.nuiss_param_values).length →
        (advancedInit hdata t).call x = none)) := by
  refine ⟨⟨?_, ?_⟩, ⟨?_, ?_⟩⟩
  · simp [SimplePoissonNegativeLogLikelihood.x0, hy]
  · intro hne
    simp only [SimplePoissonNegativeLogLikelihood.call, vecMatMulChk]
    rw [if_neg (by rw [hfrS]; omega), Option.none_bind]
  · simp [AdvancedPoissonNegativeLogLikelihood.x0, advancedInit, hy]
  · intro hne
    rw [List.length_append, hylen, hnlen] at hne
    have h3 : vecMatMulChk (x.drop t.num_templates)
        (blockDiag t.inv_corr_mats) = none := by
      rw [vecMatMulChk, if_neg]
      rw [List.length_drop, blockDiag_length_of_wf t hwf]
      omega
    simp only [AdvancedPoissonNegativeLogLikelihood.call, advancedInit, h3,
      Option.none_bind, option_bind_const_none]

/-- C6 witness: a length-3 input is rejected by both variants of the
reference configuration (whose `x0` lengths are 2 and 8). -/
theorem claim_C6_witness :
    (⟨hdataC, templatesC⟩ : SimplePoissonNegativeLogLikelihood).call
        [1, 2, 3] = none ∧
    (advancedInit hdataC templatesC).call [1, 2, 3] = none := by
  have h := claim_C6_length_mismatch_rejected hdataC templatesC [100, 50]
    [1, 2, 3] rfl (by norm_num [templatesC])
    (by norm_num [templatesC, fractionsC]) (by decide)
    (by norm_num [templatesC]) (by norm_num [templatesC])
  exact ⟨h.1.2 (by norm_num), h.2.2 (by norm_num [templatesC])⟩

/-- C7 counterexample: constructing the advanced cost function from a
collection whose `inv_corr_mats` is a single `1 × 1` matrix while
`num_templates = 2` (and `num_bins = 2`) succeeds — no shape error is
raised at construction time, contradicting the claim. -/
theorem claim_C7_counterexample :
    advancedInitChk hdataC templatesBad =
      some (advancedInit hdataC templatesBad) ∧
    templatesBad.inv_corr_mats.length ≠ templatesBad.num_templates ∧
    (advancedInit hdataC templatesBad).block_diag_inv_corr_mats = [[1]] :=
  ⟨rfl, by norm_num [templatesBad], rfl⟩

/-- C7 amended: construction performs no validation of `inv_corr_mats` —
`block_diag` assembles whatever matrices are supplied and construction
always succeeds; a count or size mismatch surfaces, if at all, only at
evaluation time through a shape mismatch in the Gaussian term. -/
theorem claim_C7_no_construction_validation :
    (∀ (hdata : DataHistogram) (t : TemplateCollection),
      advancedInitChk hdata t = some (advancedInit hdata t)) ∧
    (∀ x : List ℝ,
      x.length = templatesBad.num_templates +
        templatesBad.num_templates * templatesBad.num_bins →
      (advancedInit hdataC templatesBad).call x = none) := by
  refine ⟨fun hdata t => rfl, fun x hx => ?_⟩
  have h3 : vecMatMulChk (x.drop templatesBad.num_templates)
      (blockDiag templatesBad.inv_corr_mats) = none := by
    rw [vecMatMulChk, if_neg]
    rw [List.length_drop]
    norm_num [templatesBad, blockDiag] at hx ⊢
    omega
  simp only [AdvancedPoissonNegativeLogLikelihood.call, advancedInit, h3,
    Option.none_bind, option_bind_const_none]

/-- C7 witness: the amended claim at a concrete correctly-sized input. -/
theorem claim_C7_witness :
    (advancedInit hdataC templatesBad).call [1, 1, 0, 0, 0, 0] = none :=
  claim_C7_no_construction_validation.2 [1, 1, 0, 0, 0, 0]
    (by norm_num [templatesBad])

/-- C8: `x0` fails (raises, modelled `none`) when the collection's yields
are missing; otherwise it returns `yield_values` for the simple variant
and `yield_values ++ nuiss_param_values` for the advanced variant. -/
theorem claim_C8_x0_requires_yields (hdata : DataHistogram)
    (t : TemplateCollection) :
    (t.yield_values = none →
      (⟨hdata, t⟩ : SimplePoissonNegativeLogLikelihood).x0 = none ∧
        (advancedInit hdata t).x0 = none) ∧
    (∀ y, t.yield_values = some y →
      (⟨hdata, t⟩ : SimplePoissonNegativeLogLikelihood).x0 = some y ∧
        (advancedInit hdata t).x0 =
          some (y ++ t.nuiss_param_values)) := by
  constructor
  · intro h
    simp [SimplePoissonNegativeLogLikelihood.x0,
      AdvancedPoissonNegativeLogLikelihood.x0, advancedInit, h]
  · intro y h
    simp [SimplePoissonNegativeLogLikelihood.x0,
      AdvancedPoissonNegativeLogLikelihood.x0, advancedInit, h]

/-- C8 witness: the initialized branch at the reference configuration. -/
theorem claim_C8_witness :
    (⟨hdataC, templatesC⟩ : SimplePoissonNegativeLogLikelihood).x0 =
      some [100, 50] ∧
    (advancedInit hdataC templatesC).x0 =
      some ([100, 50] ++ List.replicate 6 0) :=
  (claim_C8_x0_requires_yields hdataC templatesC).2 [100, 50] rfl

lemma getD_append_left' {α : Type*} (d : α) (l m : List α) (k : ℕ)
    (h : k < l.length) : (l ++ m).getD k d = l.getD k d := by
  rw [List.getD_eq_getElem _ _ (by simp; omega),
    List.getElem_append_left h, List.getD_eq_getElem _ _ h]

lemma advancedInit_templates (hdata : DataHistogram)
    (t : TemplateCollection) : (advancedInit hdata t).templates = t := rfl

/-- C9: `param_names` has the same length as `x0` and consists, in order,
of `"yield_<template_id>"` for each template, followed (advanced variant)
by `"theta_<template_id>_<bin_index>"` grouped by template then by bin,
with `bin_index` zero-based. -/
theorem claim_C9_param_names (hdata : DataHistogram)
    (t : TemplateCollection) (y : List ℝ)
    (hy : t.yield_values = some y)
    (hylen : y.length = t.num_templates)
    (hids : t.template_ids.length = t.num_templates)
    (hnlen : t.nuiss_param_values.length = t.num_templates * t.num_bins) :
    ((⟨hdata, t⟩ : SimplePoissonNegativeLogLikelihood).x0 = some y ∧
      (⟨hdata, t⟩ : SimplePoissonNegativeLogLikelihood).param_names.length =
        y.length ∧
      ∀ k < t.num_templates,
        (⟨hdata, t⟩ :
            SimplePoissonNegativeLogLikelihood).param_names.getD k "" =
          "yield_" ++ t.template_ids.getD k "") ∧
    ((advancedInit hdata t).x0 = some (y ++ t.nuiss_param_values) ∧
      (advancedInit hdata t).param_names.length =
        (y ++ t.nuiss_param_values).length ∧
      (∀ k < t.num_templates,
        (advancedInit hdata t).param_names.getD k "" =
          "yield_" ++ t.template_ids.getD k "") ∧
      ∀ tt b, tt < t.num_templates → b < t.num_bins →
        (advancedInit hdata t).param_names.getD
            (t.num_templates + (tt * t.num_bins + b)) "" =
          "theta_" ++ t.template_ids.getD tt "" ++ "_" ++ toString b) := by
  have hmapl : ∀ f : String → String,
      (t.template_ids.map f).length = t.num_templates := by
    intro f
    rw [List.length_map, hids]
  have hinner : ∀ l ∈ t.template_ids.map (fun tid =>
      (List.range t.num_bins).map fun i =>
        "theta_" ++ tid ++ "_" ++ toString i), l.length = t.num_bins := by
    intro l hl
    obtain ⟨tid, _, rfl⟩ := List.mem_map.mp hl
    simp
  refine ⟨⟨?_, ?_, ?_⟩, ?_, ?_, ?_, ?_⟩
  · simp [SimplePoissonNegativeLogLikelihood.x0, hy]
  · rw [SimplePoissonNegativeLogLikelihood.param_names, hmapl, hylen]
  · intro k hk
    rw [SimplePoissonNegativeLogLikelihood.param_names,
      getD_map_of_lt _ _ k (by rw [hids]; exact hk) "" ""]
  · simp [AdvancedPoissonNegativeLogLikelihood.x0, advancedInit, hy]
  · rw [AdvancedPoissonNegativeLogLikelihood.param_names,
      advancedInit_templates, List.length_append, List.length_append, hmapl,
      List.length_flatten,
      sum_map_const _ _ t.num_bins hinner, List.length_map, hids,
      hylen, hnlen]
  · intro k hk
    rw [AdvancedPoissonNegativeLogLikelihood.param_names,
      advancedInit_templates,
      getD_append_left' _ _ _ k (by rw [hmapl]; exact hk),
      getD_map_of_lt _ _ k (by rw [hids]; exact hk) "" ""]
  · intro tt b htt hb
    rw [AdvancedPoissonNegativeLogLikelihood.param_names,
      advancedInit_templates,
      show t.num_templates + (tt * t.num_bins + b) =
        (t.template_ids.map (fun tid => "yield_" ++ tid)).length +
          (tt * t.num_bins + b) from by rw [hmapl],
      getD_append_right',
      flatten_getD_uniform "" t.num_bins _ hinner tt b
        (by rw [List.length_map, hids]; exact htt) hb,
      getD_map_of_lt _ _ tt (by rw [hids]; exact htt) [] "",
      getD_range_map _ _ b hb]

/-- C9 witness: the name of the third bin of the second template in the
reference configuration. -/
theorem claim_C9_witness :
    (advancedInit hdataC templatesC).param_names.getD (2 + (1 * 3 + 2)) "" =
      "theta_bkg_2" := by
  have h := (claim_C9_param_names hdataC templatesC [100, 50] rfl
    (by norm_num [templatesC]) (by norm_num [templatesC])
    (by norm_num [templatesC])).2.2.2.2 1 2
    (by norm_num [templatesC]) (by norm_num [templatesC])
  exact h

/-- C10: when every inverse correlation matrix is symmetric positive
semi-definite, the Gaussian term of the advanced evaluation is
non-negative, so the returned value is at least the Poisson term, with
equality exactly when the nuisance part lies in the kernel of the cached
block-diagonal matrix. -/
theorem claim_C10_gaussian_nonneg (hdata : DataHistogram)
    (t : TemplateCollection) (x : List ℝ) (hwf : t.matsWF)
    (hpsd : ∀ M ∈ t.inv_corr_mats, (toMat t.num_bins M).PosSemidef)
    (hfr : (t.bin_fractions (some (x.drop t.num_templates))).length =
      t.num_templates)
    (hobs : hdata.bin_counts.length =
      numCols (t.bin_fractions (some (x.drop t.num_templates))))
    (hx : x.length = t.num_templates + t.num_templates * t.num_bins) :
    ∃ p g,
      (advancedInit hdata t).call x = some (p + 0.5 * g) ∧
      g = dotL (vecMatMul (x.drop t.num_templates)
          (blockDiag t.inv_corr_mats)) (x.drop t.num_templates) ∧
      0 ≤ g ∧ p ≤ p + 0.5 * g ∧
      (p + 0.5 * g = p ↔
        matVecMul (blockDiag t.inv_corr_mats) (x.drop t.num_templates) =
          List.replicate (t.num_templates * t.num_bins) 0) := by
  have hdrop : (x.drop t.num_templates).length =
      t.num_templates * t.num_bins := by
    rw [List.length_drop]
    omega
  have hsq : ∀ M ∈ t.inv_corr_mats,
      M.length = t.num_bins ∧ ∀ r ∈ M, r.length = t.num_bins := hwf.2
  have hnu : (x.drop t.num_templates).length =
      t.inv_corr_mats.length * t.num_bins := by
    rw [hdrop, hwf.1]
  have hseg : ∀ tt, tt < t.inv_corr_mats.length →
      (((x.drop t.num_templates).drop (tt * t.num_bins)).take
          t.num_bins).length = t.num_bins := by
    intro tt htt
    rw [List.length_take, List.length_drop]
    have h2 : (tt + 1) * t.num_bins ≤
        t.inv_corr_mats.length * t.num_bins :=
      Nat.mul_le_mul_right _ htt
    have h3 : tt * t.num_bins + t.num_bins ≤
        (x.drop t.num_templates).length := by
      rw [hnu]
      calc tt * t.num_bins + t.num_bins = (tt + 1) * t.num_bins := by ring
        _ ≤ t.inv_corr_mats.length * t.num_bins := h2
    omega
  have hmem : ∀ tt, tt < t.inv_corr_mats.length →
      t.inv_corr_mats.getD tt [] ∈ t.inv_corr_mats := by
    intro tt htt
    rw [List.getD_eq_getElem _ _ htt]
    exact List.getElem_mem _
  -- the Gaussian quadratic form, in both orientations
  have hswap : dotL (vecMatMul (x.drop t.num_templates)
        (blockDiag t.inv_corr_mats)) (x.drop t.num_templates) =
      dotL (x.drop t.num_templates)
        (matVecMul (blockDiag t.inv_corr_mats) (x.drop t.num_templates)) :=
    dotL_vecMatMul_swap _ _ _ (blockDiag_rows_of_wf t hwf)
      (hdrop.trans (blockDiag_length_of_wf t hwf).symm)
      (by rw [hdrop, numCols_blockDiag, totalCols_of_wf t hwf])
  have hquad := quad_blockDiag t.num_bins t.inv_corr_mats
    (x.drop t.num_templates) hsq hnu
  -- each per-block quadratic form equals a Mathlib PSD quadratic form
  have hblock : ∀ tt ∈ Finset.range t.inv_corr_mats.length,
      dotL (((x.drop t.num_templates).drop (tt * t.num_bins)).take
          t.num_bins)
        (matVecMul (t.inv_corr_mats.getD tt [])
          (((x.drop t.num_templates).drop (tt * t.num_bins)).take
            t.num_bins)) =
      Matrix.dotProduct
        (toVec t.num_bins
          (((x.drop t.num_templates).drop (tt * t.num_bins)).take
            t.num_bins))
        ((toMat t.num_bins (t.inv_corr_mats.getD tt [])).mulVec
          (toVec t.num_bins
            (((x.drop t.num_templates).drop (tt * t.num_bins)).take
              t.num_bins))) := by
    intro tt htt
    have htt' := Finset.mem_range.mp htt
    exact dotL_matVecMul_toMat t.num_bins _ _
      (hsq _ (hmem tt htt')).1 (hsq _ (hmem tt htt')).2 (hseg tt htt')
  have hpsd' : ∀ tt ∈ Finset.range t.inv_corr_mats.length,
      (toMat t.num_bins (t.inv_corr_mats.getD tt [])).PosSemidef := by
    intro tt htt
    exact hpsd _ (hmem tt (Finset.mem_range.mp htt))
  have hterm_nonneg : ∀ tt ∈ Finset.range t.inv_corr_mats.length,
      0 ≤ dotL (((x.drop t.num_templates).drop (tt * t.num_bins)).take
          t.num_bins)
        (matVecMul (t.inv_corr_mats.getD tt [])
          (((x.drop t.num_templates).drop (tt * t.num_bins)).take
            t.num_bins)) := by
    intro tt htt
    rw [hblock tt htt]
    have h0 := (hpsd' tt htt).2 (toVec t.num_bins
      (((x.drop t.num_templates).drop (tt * t.num_bins)).take t.num_bins))
    rwa [star_trivial] at h0
  have hg_nonneg : 0 ≤ dotL (vecMatMul (x.drop t.num_templates)
      (blockDiag t.inv_corr_mats)) (x.drop t.num_templates) := by
    rw [hswap, hquad]
    exact Finset.sum_nonneg hterm_nonneg
  have hker : (dotL (vecMatMul (x.drop t.num_templates)
        (blockDiag t.inv_corr_mats)) (x.drop t.num_templates) = 0) ↔
      matVecMul (blockDiag t.inv_corr_mats) (x.drop t.num_templates) =
        List.replicate (t.num_templates * t.num_bins) 0 := by
    rw [hswap, hquad]
    rw [show t.num_templates * t.num_bins =
        t.inv_corr_mats.length * t.num_bins from by rw [hwf.1]]
    rw [matVecMul_blockDiag_eq_zero_iff t.num_bins t.inv_corr_mats
      (x.drop t.num_templates) hsq hnu]
    rw [Finset.sum_eq_zero_iff_of_nonneg hterm_nonneg]
    constructor
    · intro h tt htt
      have h1 := h tt (Finset.mem_range.mpr htt)
      rw [hblock tt (Finset.mem_range.mpr htt)] at h1
      have h2 := (hpsd' tt (Finset.mem_range.mpr htt)).dotProduct_mulVec_zero_iff
        (toVec t.num_bins
          (((x.drop t.num_templates).drop (tt * t.num_bins)).take
            t.num_bins))
      rw [star_trivial] at h2
      rw [matVecMul_eq_zero_iff_mulVec t.num_bins _ _
        (hsq _ (hmem tt htt)).1 (hsq _ (hmem tt htt)).2 (hseg tt htt)]
      exact h2.mp h1
    · intro h tt htt
      have htt' := Finset.mem_range.mp htt
      have h1 := h tt htt'
      rw [matVecMul_eq_zero_iff_mulVec t.num_bins _ _
        (hsq _ (hmem tt htt')).1 (hsq _ (hmem tt htt')).2
        (hseg tt htt')] at h1
      have h2 := (hpsd' tt htt).dotProduct_mulVec_zero_iff
        (toVec t.num_bins
          (((x.drop t.num_templates).drop (tt * t.num_bins)).take
            t.num_bins))
      rw [star_trivial] at h2
      rw [hblock tt htt]
      exact h2.mpr h1
  refine ⟨_, _, advanced_call_eq hdata t x hwf hfr hobs hx, rfl,
    hg_nonneg, by linarith, ?_⟩
  constructor
  · intro heq
    exact hker.mp (by linarith)
  · intro hk
    have := hker.mpr hk
    linarith

/-- C10 witness: the reference configuration with identity inverse
correlation matrices (which are positive semi-definite). -/
theorem claim_C10_witness :
    ((advancedInit hdataC templatesC).call
        [100, 50, 1, 2, 3, 4, 5, 6]).isSome = true := by
  have hone : ∀ M ∈ templatesC.inv_corr_mats,
      (toMat templatesC.num_bins M).PosSemidef := by
    intro M hM
    have h1 : toMat templatesC.num_bins M =
        (1 : Matrix (Fin 3) (Fin 3) ℝ) := by
      rcases List.mem_pair.mp hM with rfl | rfl <;>
        · ext i j
          fin_cases i <;> fin_cases j <;>
            simp [toMat, Matrix.one_apply, List.getD, Fin.ext_iff]
    rw [h1]
    exact Matrix.PosSemidef.one
  obtain ⟨p, g, hc, -⟩ := claim_C10_gaussian_nonneg hdataC templatesC
    [100, 50, 1, 2, 3, 4, 5, 6] (by decide) hone
    (by norm_num [templatesC, fractionsC])
    (by norm_num [templatesC, fractionsC, hdataC, numCols])
    (by norm_num [templatesC])
  rw [hc]
  rfl
